import Mathlib

/-!
Shallow embedding of `bowling_game_calc.py`: a two-stage bowling score
calculator.  The tokenizer (`regex_parse`) filters the input string down to
digits, `X` and `/`, and converts each retained character to an integer pin
count; the scorer (`score`) folds the resulting throw list into a total,
frame by frame.  Python integers are modelled as `Int`; a Python
`ValueError` raised by `int(...)` on a non-digit character is modelled as
`Option.none` propagating through the pipeline.  The scope of the character
classes is ASCII, which covers every input in the repository.
-/

/-- Characters kept by the filter `re.sub(r'[^\d/X]', '', data)`:
decimal digits, `/` and `X`. -/
def bowlingChar (c : Char) : Bool := c.isDigit || c = '/' || c = 'X'

/-- The Python list `f_list = list(re.sub(r'[^\d/X]', '', data))`:
the retained characters of the input, in order. -/
def f_list (data : String) : List Char := data.data.filter bowlingChar

/-- Python `int(c)` on a single character: the numeric value of a decimal
digit, and a `ValueError` (modelled as `none`) on any other character,
in particular on `X` and `/`. -/
def pyInt (c : Char) : Option Int :=
  if c.isDigit then some ((c.toNat : Int) - 48) else none

/-- The Python index expression `f_list[idx - 1]` for `idx : Nat`:
for `idx = 0` this is `f_list[-1]`, the last element (wrap-around);
otherwise the element at `idx - 1`. -/
def prevChar (l : List Char) (idx : Nat) : Option Char :=
  if idx = 0 then l.getLast? else l[idx - 1]?

/-- The value produced for the retained character `val` at position `idx`
of `f_list`, following the comprehension in `regex_parse`:
`10 - int(f_list[idx - 1]) if val is '/' else 10 if val is 'X' else int(val)`. -/
def tokenAt (l : List Char) (idx : Nat) (val : Char) : Option Int :=
  if val = '/' then ((prevChar l idx).bind pyInt).map (fun v => 10 - v)
  else if val = 'X' then some 10
  else pyInt val

/-- Left-to-right evaluation of the comprehension
`[... for idx, val in enumerate(f_list)]`, starting at index `idx` with the
suffix `cs` of `l` still to process; the first `ValueError` aborts the whole
comprehension, hence the `Option`. -/
def tokensFrom (l : List Char) : Nat → List Char → Option (List Int)
  | _, [] => some []
  | idx, c :: cs =>
    match tokenAt l idx c, tokensFrom l (idx + 1) cs with
    | some v, some rest => some (v :: rest)
    | _, _ => none

/-- The Python function `regex_parse` (the tokenizer): filter the input,
then convert each retained character, resolving `/` against the previous
retained character. -/
def regex_parse (data : String) : Option (List Int) :=
  tokensFrom (f_list data) 0 (f_list data)

/-- The strike bonus computed in `score`:
`sum(throws[1:3])` when `len(throws) >= 3`, `throws[1]` when
`len(throws) > 1`, else `0`. -/
def strikeBonus (throws : List Int) : Int :=
  if throws.length ≥ 3 then ((throws.drop 1).take 2).sum
  else if throws.length > 1 then throws.getD 1 0
  else 0

/-- The spare bonus computed in `score`: `throws[2]` when
`len(throws) >= 3`, else `0`. -/
def spareBonus (throws : List Int) : Int :=
  if throws.length ≥ 3 then throws.getD 2 0 else 0

/-- The Python function `score(throws, frame=1, total=0)`: recursive
frame-by-frame fold.  Terminal when `frame > 10` or the list is empty;
a strike (`throws[0] == 10`) consumes one throw, a spare
(`sum(throws[0:2]) == 10`) and an open frame consume two. -/
def score (throws : List Int) (frame : Int) (total : Int) : Int :=
  if frame > 10 ∨ throws = [] then total
  else if throws.headD 0 = 10 then
    score (throws.drop 1) (frame + 1) (total + 10 + strikeBonus throws)
  else if (throws.take 2).sum = 10 then
    score (throws.drop 2) (frame + 1) (total + 10 + spareBonus throws)
  else
    score (throws.drop 2) (frame + 1) (total + (throws.take 2).sum)
termination_by throws.length
decreasing_by
all_goals
  have hne : throws ≠ [] := by
    intro hnil
    simp_all
  have hl : 0 < throws.length := List.length_pos.mpr hne
  simp only [List.length_drop]
  omega

/-- Fuel-indexed variant of `score`, identical branch for branch, used to
state that the recursion of `score` completes within an explicit number of
call steps (`none` means the fuel ran out before the recursion finished). -/
def scoreFuel : Nat → List Int → Int → Int → Option Int
  | 0, _, _, _ => none
  | fuel + 1, throws, frame, total =>
    if frame > 10 ∨ throws = [] then some total
    else if throws.headD 0 = 10 then
      scoreFuel fuel (throws.drop 1) (frame + 1) (total + 10 + strikeBonus throws)
    else if (throws.take 2).sum = 10 then
      scoreFuel fuel (throws.drop 2) (frame + 1) (total + 10 + spareBonus throws)
    else
      scoreFuel fuel (throws.drop 2) (frame + 1) (total + (throws.take 2).sum)

/-- The Python function `total_score`: `0` for the empty (falsy) string,
otherwise tokenize and score. -/
def total_score (data : String) : Option Int :=
  if data = "" then some 0
  else (regex_parse data).map (fun throws => score throws 1 0)

/-- Specification predicate: every retained `/` has, at the position the
tokenizer actually reads (previous index, wrapping to the last element at
index `0`), a decimal digit.  Exactly the inputs on which the comprehension
in `regex_parse` never feeds `X` or `/` to `int(...)`. -/
def slashesOk (l : List Char) : Bool :=
  (List.range l.length).all (fun idx =>
    if l[idx]? = some '/' then
      match prevChar l idx with
      | some c => c.isDigit
      | none => false
    else true)

/-- Specification predicate for sequences made only of open frames:
non-negative throws, no throw of `10`, and no frame pair (elements
`2*i, 2*i+1`) summing to `10`; a trailing unpaired throw must not be `10`. -/
def openFrames : List Int → Bool
  | [] => true
  | [a] => decide (0 ≤ a) && decide (a ≠ 10)
  | a :: b :: rest =>
    decide (0 ≤ a) && decide (0 ≤ b) && decide (a ≠ 10) && decide (b ≠ 10) &&
      decide (a + b ≠ 10) && openFrames rest

/-! Helper lemmas about the scorer. -/

/-- Terminal case of `score`: past frame 10 or out of throws, the
accumulator is returned unchanged. -/
theorem score_terminal (throws : List Int) (frame total : Int)
    (h : frame > 10 ∨ throws = []) : score throws frame total = total := by
  rw [score.eq_def, if_pos h]

/-- `score` on the empty throw list returns the accumulator. -/
theorem score_nil (frame total : Int) : score [] frame total = total :=
  score_terminal [] frame total (Or.inr rfl)

/-- Strike step of `score`, in terms of `strikeBonus`. -/
theorem score_strike (rest : List Int) (frame total : Int) (hf : frame ≤ 10) :
    score (10 :: rest) frame total =
      score rest (frame + 1) (total + 10 + strikeBonus (10 :: rest)) := by
  rw [score.eq_def]
  rw [if_neg (by simp; omega)]
  rw [if_pos (by simp)]
  simp

/-- With enough fuel, `scoreFuel` completes and computes `score`.  Fuel
larger than the list length always suffices (each step consumes at least
one throw); from a frame index of at least `1`, fuel `12 - frame`
suffices (each step increments the frame, terminal once past `10`). -/
theorem scoreFuel_complete (fuel : Nat) (throws : List Int) (frame total : Int)
    (h : throws.length < fuel ∨
      (1 ≤ frame ∧ 12 ≤ frame + (fuel : Int) ∧ 1 ≤ fuel)) :
    scoreFuel fuel throws frame total = some (score throws frame total) := by
  induction fuel generalizing throws frame total with
  | zero =>
    exfalso
    rcases h with h | ⟨h1, h2, h3⟩
    · omega
    · omega
  | succ n ih =>
    by_cases hterm : frame > 10 ∨ throws = []
    · rw [scoreFuel, if_pos hterm, score_terminal throws frame total hterm]
    · have hne : throws ≠ [] := fun hn => hterm (Or.inr hn)
      have hlen : 0 < throws.length := List.length_pos.mpr hne
      have hf : frame ≤ 10 := by
        rcases not_or.mp hterm with ⟨h1, _⟩
        omega
      have hnext : ∀ d, 0 < d →
          (throws.drop d).length < n ∨
            (1 ≤ frame + 1 ∧ 12 ≤ frame + 1 + (n : Int) ∧ 1 ≤ n) := by
        intro d hd
        rcases h with hl | ⟨h1, h2, h3⟩
        · left
          simp only [List.length_drop]
          omega
        · right
          push_cast at h2 ⊢
          refine ⟨by omega, by omega, by omega⟩
      rw [scoreFuel, if_neg hterm, score.eq_def, if_neg hterm]
      by_cases hstrike : throws.headD 0 = 10
      · rw [if_pos hstrike, if_pos hstrike]
        exact ih _ _ _ (hnext 1 (by omega))
      · rw [if_neg hstrike, if_neg hstrike]
        by_cases hspare : (throws.take 2).sum = 10
        · rw [if_pos hspare, if_pos hspare]
          exact ih _ _ _ (hnext 2 (by omega))
        · rw [if_neg hspare, if_neg hspare]
          exact ih _ _ _ (hnext 2 (by omega))

/-- Transfer of a concrete `scoreFuel` computation to `score`. -/
theorem score_eval {throws : List Int} {frame total r : Int}
    (h : scoreFuel (throws.length + 1) throws frame total = some r) :
    score throws frame total = r := by
  have h2 := scoreFuel_complete (throws.length + 1) throws frame total
    (Or.inl (Nat.lt_succ_self _))
  rw [h] at h2
  exact (Option.some.inj h2).symm

/-- Evaluation scheme for `total_score` on a concrete non-empty input. -/
theorem ts_eval (s : String) (l : List Int) (r : Int)
    (hne : s ≠ "") (hp : regex_parse s = some l)
    (hs : scoreFuel (l.length + 1) l 1 0 = some r) :
    total_score s = some r := by
  rw [total_score, if_neg hne, hp]
  exact congrArg some (score_eval hs)

/-! Helper lemmas about the tokenizer. -/

/-- A digit character has code point between `48` and `57`. -/
theorem isDigit_toNat {c : Char} (h : c.isDigit = true) :
    48 ≤ c.toNat ∧ c.toNat ≤ 57 := by
  simp only [Char.isDigit, Bool.and_eq_true, decide_eq_true_eq] at h
  obtain ⟨h1, h2⟩ := h
  constructor
  · exact h1
  · exact h2

/-- `int(c)` on a digit character yields a value in `[0, 9]`. -/
theorem pyInt_bounds {c : Char} {v : Int} (h : pyInt c = some v) :
    0 ≤ v ∧ v ≤ 9 := by
  rw [pyInt] at h
  split at h
  · obtain ⟨h1, h2⟩ := isDigit_toNat (by assumption)
    obtain rfl : ((c.toNat : Int) - 48) = v := Option.some.inj h
    omega
  · exact absurd h (by simp)

/-- Every value the comprehension emits lies in `[0, 10]`. -/
theorem tokenAt_bounds {l : List Char} {i : Nat} {c : Char} {v : Int}
    (h : tokenAt l i c = some v) : 0 ≤ v ∧ v ≤ 10 := by
  rw [tokenAt] at h
  split at h
  · cases hp : (prevChar l i).bind pyInt with
    | none => rw [hp] at h; exact absurd h (by simp)
    | some w =>
      rw [hp] at h
      obtain rfl : 10 - w = v := Option.some.inj h
      cases hc : prevChar l i with
      | none => rw [hc] at hp; exact absurd hp (by simp)
      | some d =>
        rw [hc] at hp
        obtain ⟨h1, h2⟩ := pyInt_bounds hp
        omega
  · split at h
    · obtain rfl : (10 : Int) = v := Option.some.inj h
      omega
    · obtain ⟨h1, h2⟩ := pyInt_bounds h
      omega

/-- Indexwise description of a successful run of the comprehension: the
output has one entry per input character, and the entry at each position
is the value of `tokenAt` there. -/
theorem tokensFrom_spec {l : List Char} :
    ∀ (cs : List Char) (idx : Nat) (out : List Int),
      tokensFrom l idx cs = some out →
      out.length = cs.length ∧
        ∀ (j : Nat) (c : Char), cs[j]? = some c →
          ∃ v : Int, tokenAt l (idx + j) c = some v ∧ out[j]? = some v := by
  intro cs
  induction cs with
  | nil =>
    intro idx out h
    obtain rfl : ([] : List Int) = out := Option.some.inj h
    exact ⟨rfl, by intro j c hj; simp at hj⟩
  | cons c cs ih =>
    intro idx out h
    rw [tokensFrom] at h
    cases htok : tokenAt l idx c with
    | none => rw [htok] at h; simp at h
    | some v =>
      rw [htok] at h
      cases hrest : tokensFrom l (idx + 1) cs with
      | none => rw [hrest] at h; simp at h
      | some rest =>
        rw [hrest] at h
        obtain rfl : v :: rest = out := Option.some.inj h
        obtain ⟨hlen, hspec⟩ := ih (idx + 1) rest hrest
        refine ⟨by simp [hlen], ?_⟩
        intro j d hj
        cases j with
        | zero =>
          simp only [List.getElem?_cons_zero] at hj
          obtain rfl : c = d := Option.some.inj hj
          exact ⟨v, by simpa using htok, by simp⟩
        | succ k =>
          simp only [List.getElem?_cons_succ] at hj
          obtain ⟨w, hw1, hw2⟩ := hspec k d hj
          refine ⟨w, ?_, by simpa using hw2⟩
          rw [show idx + (k + 1) = idx + 1 + k by omega]
          exact hw1

/-- On a successful tokenizer run, each retained `/` was resolved through
`prevChar` and `pyInt` into `10` minus the previous digit value. -/
theorem slash_resolve {data : String} {out : List Int} {idx : Nat}
    (h : regex_parse data = some out)
    (hs : (f_list data)[idx]? = some '/') :
    ∃ c v, prevChar (f_list data) idx = some c ∧ pyInt c = some v ∧
      out[idx]? = some (10 - v) := by
  rw [regex_parse] at h
  obtain ⟨hlen, hspec⟩ := tokensFrom_spec (f_list data) 0 out h
  obtain ⟨w, hw1, hw2⟩ := hspec idx '/' hs
  rw [Nat.zero_add] at hw1
  rw [tokenAt, if_pos rfl] at hw1
  rw [Option.map_eq_some'] at hw1
  obtain ⟨a, ha, haw⟩ := hw1
  rw [Option.bind_eq_some] at ha
  obtain ⟨c, hc, hv⟩ := ha
  refine ⟨c, a, hc, hv, ?_⟩
  rw [haw]
  exact hw2

/-- Unpacking of the `slashesOk` predicate at one index. -/
theorem slashesOk_spec {l : List Char} (h : slashesOk l = true) {idx : Nat}
    (hs : l[idx]? = some '/') :
    ∃ c, prevChar l idx = some c ∧ c.isDigit = true := by
  rw [slashesOk, List.all_eq_true] at h
  have hlt : idx < l.length := by
    by_contra hge
    rw [List.getElem?_eq_none (by omega)] at hs
    simp at hs
  have := h idx (List.mem_range.mpr hlt)
  rw [if_pos hs] at this
  cases hc : prevChar l idx with
  | none => rw [hc] at this; simp at this
  | some c => rw [hc] at this; exact ⟨c, rfl, this⟩

/-- A list whose `drop` at `idx` starts with `c` has `c` at index `idx`. -/
theorem drop_cons_getElem {α : Type} {l : List α} {idx : Nat} {c : α}
    {cs : List α} (h : l.drop idx = c :: cs) : l[idx]? = some c := by
  have h0 : (l.drop idx)[0]? = some c := by rw [h]; simp
  rw [List.getElem?_drop] at h0
  simpa using h0

/-- The comprehension succeeds on any suffix of a filtered list all of
whose retained slashes resolve against digits. -/
theorem tokensFrom_total {l : List Char}
    (hchars : ∀ c ∈ l, bowlingChar c = true) (hsl : slashesOk l = true) :
    ∀ (cs : List Char) (idx : Nat), l.drop idx = cs →
      (tokensFrom l idx cs).isSome = true := by
  intro cs
  induction cs with
  | nil => intro idx h; rw [tokensFrom]; rfl
  | cons c cs ih =>
    intro idx h
    have hidx : l[idx]? = some c := drop_cons_getElem h
    have hrec : l.drop (idx + 1) = cs := by
      rw [← List.drop_drop, h]
      rfl
    have htok : (tokenAt l idx c).isSome = true := by
      rw [tokenAt]
      by_cases hslash : c = '/'
      · rw [if_pos hslash]
        obtain ⟨d, hd1, hd2⟩ := slashesOk_spec hsl (hslash ▸ hidx)
        rw [hd1]
        simp [pyInt, hd2]
      · rw [if_neg hslash]
        by_cases hx : c = 'X'
        · rw [if_pos hx]; rfl
        · rw [if_neg hx]
          have hmem : c ∈ l := List.getElem?_mem hidx
          have hbc := hchars c hmem
          rw [bowlingChar, Bool.or_eq_true, Bool.or_eq_true] at hbc
          rcases hbc with (hd | h1) | h2
          · simp [pyInt, hd]
          · exact absurd (by simpa using h1) hslash
          · exact absurd (by simpa using h2) hx
    rw [tokensFrom]
    obtain ⟨v, hv⟩ := Option.isSome_iff_exists.mp htok
    obtain ⟨rest, hrest⟩ := Option.isSome_iff_exists.mp (ih (idx + 1) hrec)
    rw [hv, hrest]
    rfl

/-! Helper lemmas for open-frame monotonicity. -/

/-- All throws of an `openFrames` sequence are non-negative. -/
theorem openFrames_nonneg {t : List Int} (h : openFrames t = true) :
    ∀ x ∈ t, 0 ≤ x := by
  induction t using openFrames.induct with
  | case1 => intro x hx; simp at hx
  | case2 a =>
    rw [openFrames] at h
    simp only [Bool.and_eq_true, decide_eq_true_eq] at h
    intro x hx
    simp only [List.mem_singleton] at hx
    subst hx
    exact h.1
  | case3 a b rest ih =>
    rw [openFrames] at h
    simp only [Bool.and_eq_true, decide_eq_true_eq] at h
    obtain ⟨⟨⟨⟨⟨ha, hb⟩, _⟩, _⟩, _⟩, hrest⟩ := h
    intro x hx
    rcases List.mem_cons.mp hx with rfl | hx2
    · exact ha
    rcases List.mem_cons.mp hx2 with rfl | hx3
    · exact hb
    exact ih hrest x hx3

/-- The strike bonus over non-negative throws is non-negative. -/
theorem strikeBonus_nonneg {t : List Int} (h : ∀ x ∈ t, 0 ≤ x) :
    0 ≤ strikeBonus t := by
  rw [strikeBonus]
  split
  · apply List.sum_nonneg
    intro x hx
    exact h x (List.mem_of_mem_drop (List.mem_of_mem_take hx))
  split
  · rw [List.getD_eq_getElem?_getD]
    cases hg : t[1]? with
    | none => simp
    | some y => simpa using h y (List.getElem?_mem hg)
  · omega

/-- The spare bonus over non-negative throws is non-negative. -/
theorem spareBonus_nonneg {t : List Int} (h : ∀ x ∈ t, 0 ≤ x) :
    0 ≤ spareBonus t := by
  rw [spareBonus]
  split
  · rw [List.getD_eq_getElem?_getD]
    cases hg : t[2]? with
    | none => simp
    | some y => simpa using h y (List.getElem?_mem hg)
  · omega

/-- Over non-negative throws the accumulator never decreases. -/
theorem score_ge (t : List Int) (frame total : Int)
    (h : ∀ x ∈ t, 0 ≤ x) : total ≤ score t frame total := by
  induction t, frame, total using score.induct with
  | case1 t frame total hterm => rw [score_terminal t frame total hterm]
  | case2 t frame total hterm hstrike ih =>
    rw [score.eq_def, if_neg hterm, if_pos hstrike]
    have hb : 0 ≤ strikeBonus t := strikeBonus_nonneg h
    have hdrop : ∀ x ∈ t.drop 1, 0 ≤ x := fun x hx => h x (List.mem_of_mem_drop hx)
    have := ih hdrop
    omega
  | case3 t frame total hterm hstrike hspare ih =>
    rw [score.eq_def, if_neg hterm, if_neg hstrike, if_pos hspare]
    have hb : 0 ≤ spareBonus t := spareBonus_nonneg h
    have hdrop : ∀ x ∈ t.drop 2, 0 ≤ x := fun x hx => h x (List.mem_of_mem_drop hx)
    have := ih hdrop
    omega
  | case4 t frame total hterm hstrike hspare ih =>
    rw [score.eq_def, if_neg hterm, if_neg hstrike, if_neg hspare]
    have hb : 0 ≤ (t.take 2).sum := by
      apply List.sum_nonneg
      intro x hx
      exact h x (List.mem_of_mem_take hx)
    have hdrop : ∀ x ∈ t.drop 2, 0 ≤ x := fun x hx => h x (List.mem_of_mem_drop hx)
    have := ih hdrop
    omega

/-- Open-frame step of `score` on a frame of two throws. -/
theorem score_open2 (a b : Int) (rest : List Int) (frame total : Int)
    (ha : a ≠ 10) (hab : a + b ≠ 10) (hf : frame ≤ 10) :
    score (a :: b :: rest) frame total =
      score rest (frame + 1) (total + (a + b)) := by
  rw [score.eq_def]
  rw [if_neg (by simp; omega)]
  rw [if_neg (by simpa using ha)]
  rw [if_neg (by simpa using hab)]
  simp

/-- Open-frame step of `score` on a single trailing throw. -/
theorem score_open1 (a : Int) (frame total : Int)
    (ha : a ≠ 10) (hf : frame ≤ 10) :
    score [a] frame total = total + a := by
  rw [score.eq_def]
  rw [if_neg (by simp; omega)]
  rw [if_neg (by simpa using ha)]
  rw [if_neg (by simpa using ha)]
  simp [score_nil]

/-- Scoring any `take`-prefix of an open-frame sequence is bounded by
scoring the whole sequence, for every frame index and accumulator. -/
theorem score_take_le (t : List Int) (h : openFrames t = true) :
    ∀ (k : Nat) (frame total : Int),
      score (t.take k) frame total ≤ score t frame total := by
  induction t using openFrames.induct with
  | case1 =>
    intro k frame total
    simp
  | case2 a =>
    rw [openFrames] at h
    simp only [Bool.and_eq_true, decide_eq_true_eq] at h
    obtain ⟨ha0, ha10⟩ := h
    intro k frame total
    by_cases hf : frame > 10
    · rw [score_terminal _ _ _ (Or.inl hf), score_terminal _ _ _ (Or.inl hf)]
    · have hf10 : frame ≤ 10 := by omega
      cases k with
      | zero =>
        rw [List.take_zero, score_nil, score_open1 a frame total ha10 hf10]
        omega
      | succ k2 =>
        rw [List.take_succ_cons, List.take_nil]
  | case3 a b rest ih =>
    rw [openFrames] at h
    simp only [Bool.and_eq_true, decide_eq_true_eq] at h
    obtain ⟨⟨⟨⟨⟨ha0, hb0⟩, ha10⟩, hb10⟩, hab⟩, hrest⟩ := h
    have hnn : ∀ x ∈ rest, 0 ≤ x := openFrames_nonneg hrest
    intro k frame total
    by_cases hf : frame > 10
    · rw [score_terminal _ _ _ (Or.inl hf), score_terminal _ _ _ (Or.inl hf)]
    · have hf10 : frame ≤ 10 := by omega
      match k with
      | 0 =>
        rw [List.take_zero, score_nil,
          score_open2 a b rest frame total ha10 hab hf10]
        have := score_ge rest (frame + 1) (total + (a + b)) hnn
        omega
      | 1 =>
        rw [List.take_succ_cons, List.take_zero,
          score_open1 a frame total ha10 hf10,
          score_open2 a b rest frame total ha10 hab hf10]
        have := score_ge rest (frame + 1) (total + (a + b)) hnn
        omega
      | (k2 + 2) =>
        rw [List.take_succ_cons, List.take_succ_cons,
          score_open2 a b _ frame total ha10 hab hf10,
          score_open2 a b rest frame total ha10 hab hf10]
        exact ih hrest k2 (frame + 1) (total + (a + b))

/-! Claim theorems. -/

/-- Claim C1, counterexample: the claim asserts totality for every input
string, including a leading '/' ; but on the input consisting of a single
'/' the tokenizer evaluates `int(f_list[-1]) = int('/')`, which raises a
`ValueError`, so `total_score` does not return an integer. -/
theorem C1_totality_counterexample : total_score ("/") = none := by decide

/-- Claim C1, amended: `total_score` (with the underlying `regex_parse`
and `score` stages) returns an integer for every input string in which
each retained '/' is preceded, at the index the tokenizer reads (previous
retained character, wrapping to the last retained character for a leading
'/'), by a decimal digit; on other inputs `int(...)` raises `ValueError`. -/
theorem C1_totality_amended (data : String)
    (h : slashesOk (f_list data) = true) :
    (total_score data).isSome = true := by
  rw [total_score]
  by_cases he : data = ""
  · rw [if_pos he]; rfl
  · rw [if_neg he]
    have hchars : ∀ c ∈ f_list data, bowlingChar c = true := by
      intro c hc
      exact (List.mem_filter.mp hc).2
    have := tokensFrom_total hchars h (f_list data) 0 (List.drop_zero _)
    rw [regex_parse]
    obtain ⟨out, hout⟩ := Option.isSome_iff_exists.mp this
    rw [hout]
    rfl

/-- Witness for the amended claim C1 at the input "5/". -/
theorem C1_totality_amended_witness :
    slashesOk (f_list ("5/")) = true ∧ (total_score ("5/")).isSome = true :=
  ⟨by decide, C1_totality_amended ("5/") (by decide)⟩

/-- Claim C2, counterexample: the claim asserts that a retained '/' is
resolved against the post-conversion value of the previous retained
character, so that tokenizing "X/" yields `[10, 0]`; but the code reads
the previous raw character `f_list[idx - 1]` and applies `int(...)` to it,
so on "X/" it evaluates `int('X')`, which raises a `ValueError`. -/
theorem C2_spare_counterexample : regex_parse ("X/") = none := by decide

/-- Claim C2, amended: on every input on which the tokenizer returns, a
retained '/' at position `idx` is emitted as `10` minus the numeric value
of the previous retained character (read as raw text through `int`, which
requires it to be a digit), the previous position wrapping to the last
retained character when `idx = 0`. -/
theorem C2_spare_amended (data : String) (out : List Int) (idx : Nat)
    (h : regex_parse data = some out)
    (hs : (f_list data)[idx]? = some '/') :
    ∃ c v, prevChar (f_list data) idx = some c ∧ pyInt c = some v ∧
      out[idx]? = some (10 - v) :=
  slash_resolve h hs

/-- Witness for the amended claim C2 at the input "5/", position 1. -/
theorem C2_spare_amended_witness :
    regex_parse ("5/") = some [5, 5] ∧ (f_list ("5/"))[1]? = some '/' ∧
      (∃ c v, prevChar (f_list ("5/")) 1 = some c ∧ pyInt c = some v ∧
        ([5, 5] : List Int)[1]? = some (10 - v)) :=
  ⟨by decide, by decide, C2_spare_amended ("5/") [5, 5] 1 (by decide) (by decide)⟩

/-- Claim C3: evaluation of the three worked examples.  The perfect game
scores 300 and the all-spares game scores 150, as claimed; but the mixed
game scores 168, while the claim (and the self-test table in `run_tests`,
whose assertion therefore fails) says 167. -/
theorem C3_worked_examples_eval :
    total_score ("X-X-X-X-X-X-X-X-X-X-XX") = some 300 ∧
    total_score ("5/5/5/5/5/5/5/5/5/5/5") = some 150 ∧
    total_score ("X7/9-X-88/-6XXX81") = some 168 :=
  ⟨ts_eval _ [10, 10, 10, 10, 10, 10, 10, 10, 10, 10, 10, 10] 300
      (by decide) (by decide) (by decide),
   ts_eval _ [5, 5, 5, 5, 5, 5, 5, 5, 5, 5, 5, 5, 5, 5, 5, 5, 5, 5, 5, 5, 5] 150
      (by decide) (by decide) (by decide),
   ts_eval _ [10, 7, 3, 9, 10, 8, 8, 2, 6, 10, 10, 10, 8, 1] 168
      (by decide) (by decide) (by decide)⟩

/-- Claim C4: for a throw sequence whose first element is 10 and a frame
index at most 10, `score` adds 10 plus the sum of the next two throws when
at least two follow, the single next throw when exactly one follows, and 0
when none follow, then recurses on the sequence with the strike throw
removed and the frame index incremented. -/
theorem C4_strike_rule (rest : List Int) (frame total : Int)
    (hf : frame ≤ 10) :
    score (10 :: rest) frame total =
      score rest (frame + 1)
        (total + 10 +
          (match rest with
           | b1 :: b2 :: _ => b1 + b2
           | [b1] => b1
           | [] => 0)) := by
  rw [score_strike rest frame total hf]
  congr 1
  cases rest with
  | nil => simp [strikeBonus]
  | cons b1 t =>
    cases t with
    | nil => simp [strikeBonus, List.getD]
    | cons b2 t2 => simp [strikeBonus]

/-- Witness for claim C4 at the sequence `[10, 3, 4]`, frame 1. -/
theorem C4_strike_rule_witness :
    (1 : Int) ≤ 10 ∧
      score [(10 : Int), 3, 4] 1 0 = score [3, 4] (1 + 1) (0 + 10 + (3 + 4)) :=
  ⟨by decide, C4_strike_rule [3, 4] 1 0 (by decide)⟩

/-- Claim C5: for a throw sequence starting with two throws that sum to 10
(the first not itself 10) and a frame index at most 10, `score` adds 10
plus the third throw when it exists and 0 otherwise, then recurses on the
sequence with the first two throws removed and the frame index
incremented. -/
theorem C5_spare_rule (a b : Int) (rest : List Int) (frame total : Int)
    (ha : a ≠ 10) (hab : a + b = 10) (hf : frame ≤ 10) :
    score (a :: b :: rest) frame total =
      score rest (frame + 1)
        (total + 10 +
          (match rest with
           | c :: _ => c
           | [] => 0)) := by
  rw [score.eq_def]
  rw [if_neg (by simp; omega)]
  rw [if_neg (by simpa using ha)]
  rw [if_pos (by simp [hab])]
  congr 1
  cases rest with
  | nil => simp [spareBonus]
  | cons c t => simp [spareBonus, List.getD]

/-- Witness for claim C5 at the sequence `[6, 4, 5]`, frame 1. -/
theorem C5_spare_rule_witness :
    (6 : Int) ≠ 10 ∧ (6 : Int) + 4 = 10 ∧ (1 : Int) ≤ 10 ∧
      score [(6 : Int), 4, 5] 1 0 = score [5] (1 + 1) (0 + 10 + 5) :=
  ⟨by decide, by decide, by decide,
    C5_spare_rule 6 4 [5] 1 0 (by decide) (by decide) (by decide)⟩

/-- Claim C6: `total_score` returns 0 on the empty string and on every
string containing no decimal digit, no 'X' and no '/' (the empty string
takes the falsy branch, and any separator-only string filters to the empty
throw list). -/
theorem C6_separators_zero (data : String)
    (h : ∀ c ∈ data.data, bowlingChar c = false) :
    total_score data = some 0 := by
  rw [total_score]
  by_cases he : data = ""
  · rw [if_pos he]
  · rw [if_neg he]
    have hnil : f_list data = [] := by
      rw [f_list, List.filter_eq_nil_iff]
      intro c hc
      simp [h c hc]
    rw [regex_parse, hnil, tokensFrom]
    exact congrArg some (score_nil 1 0)

/-- Witness for claim C6 at the separator-only input "---". -/
theorem C6_separators_zero_witness :
    (∀ c ∈ ("---" : String).data, bowlingChar c = false) ∧
      total_score ("---") = some 0 :=
  ⟨by decide, C6_separators_zero ("---") (by decide)⟩

/-- Claim C7: on every input on which the tokenizer returns, every element
of the resulting throw sequence is an integer in `[0, 10]`. -/
theorem C7_token_bounds (data : String) (out : List Int)
    (h : regex_parse data = some out) :
    ∀ x ∈ out, 0 ≤ x ∧ x ≤ 10 := by
  intro x hx
  rw [regex_parse] at h
  obtain ⟨hlen, hspec⟩ := tokensFrom_spec (f_list data) 0 out h
  obtain ⟨j, hj⟩ := List.mem_iff_getElem?.mp hx
  have hjlt : j < out.length := by
    by_contra hge
    rw [List.getElem?_eq_none (by omega)] at hj
    simp at hj
  have hjl : j < (f_list data).length := by omega
  obtain ⟨w, hw1, hw2⟩ := hspec j ((f_list data)[j]) (List.getElem?_eq_getElem hjl)
  rw [hj] at hw2
  obtain rfl : x = w := Option.some.inj hw2
  exact tokenAt_bounds hw1

/-- Witness for claim C7 at the mixed-game input of the test table. -/
theorem C7_token_bounds_witness :
    regex_parse ("X7/9-X-88/-6XXX81") =
        some [10, 7, 3, 9, 10, 8, 8, 2, 6, 10, 10, 10, 8, 1] ∧
      ∀ x ∈ ([10, 7, 3, 9, 10, 8, 8, 2, 6, 10, 10, 10, 8, 1] : List Int),
        0 ≤ x ∧ x ≤ 10 :=
  ⟨by decide, C7_token_bounds ("X7/9-X-88/-6XXX81") _ (by decide)⟩

/-- Claim C8: the recursion of `score` terminates, with call depth bounded
by the number of throws (each step removes 1 or 2 throws) and, from a
frame index of at least 1, by the 10-frame bound (each step increments the
frame index, and the recursion stops once it exceeds 10 or the sequence is
empty): with either fuel bound, the fuel-indexed `scoreFuel` completes and
returns the value of `score`. -/
theorem C8_score_terminates (throws : List Int) (frame total : Int)
    (fuel : Nat)
    (h : throws.length < fuel ∨
      (1 ≤ frame ∧ 12 ≤ frame + (fuel : Int) ∧ 1 ≤ fuel)) :
    scoreFuel fuel throws frame total = some (score throws frame total) :=
  scoreFuel_complete fuel throws frame total h

/-- Witness for claim C8: from frame 1, fuel 11 (at most 10 recursive
steps plus the terminal call) suffices even for a 12-throw sequence. -/
theorem C8_score_terminates_witness :
    (([10, 10, 10, 10, 10, 10, 10, 10, 10, 10, 10, 10] : List Int).length < 11 ∨
      (1 ≤ (1 : Int) ∧ 12 ≤ (1 : Int) + ((11 : Nat) : Int) ∧ 1 ≤ (11 : Nat))) ∧
      scoreFuel 11 [10, 10, 10, 10, 10, 10, 10, 10, 10, 10, 10, 10] 1 0 =
        some (score [10, 10, 10, 10, 10, 10, 10, 10, 10, 10, 10, 10] 1 0) :=
  ⟨by decide,
    C8_score_terminates [10, 10, 10, 10, 10, 10, 10, 10, 10, 10, 10, 10] 1 0 11
      (by decide)⟩

/-- Claim C9: for a throw sequence made only of open frames (non-negative
throws, none equal to 10, no frame pair summing to 10), scoring any prefix
(`take k`) from frame 1 yields at most the score of the full sequence. -/
theorem C9_open_prefix_monotone (t : List Int) (k : Nat)
    (h : openFrames t = true) :
    score (t.take k) 1 0 ≤ score t 1 0 :=
  score_take_le t h k 1 0

/-- Witness for claim C9 at the sequence `[1, 2, 3, 4]` and prefix
length 3. -/
theorem C9_open_prefix_monotone_witness :
    openFrames [(1 : Int), 2, 3, 4] = true ∧
      score (([(1 : Int), 2, 3, 4]).take 3) 1 0 ≤ score [(1 : Int), 2, 3, 4] 1 0 :=
  ⟨by decide, C9_open_prefix_monotone [(1 : Int), 2, 3, 4] 3 (by decide)⟩

/-- Claim C10: when the first retained character of the input is '/', the
tokenizer resolves it against the last retained character of the filtered
string (the `idx - 1` lookup wraps around at index 0): on success the
first emitted value is 10 minus the value of the last retained character;
in particular tokenizing "/5" yields `[5, 5]`. -/
theorem C10_leading_slash_wraparound :
    (∀ (data : String) (out : List Int), regex_parse data = some out →
      (f_list data).head? = some '/' →
      ∃ c v, (f_list data).getLast? = some c ∧ pyInt c = some v ∧
        out.head? = some (10 - v)) ∧
    regex_parse ("/5") = some [5, 5] := by
  constructor
  · intro data out h hhead
    rw [List.head?_eq_getElem?] at hhead
    obtain ⟨c, v, hc, hv, hout⟩ := slash_resolve h hhead
    rw [prevChar, if_pos rfl] at hc
    refine ⟨c, v, hc, hv, ?_⟩
    rw [List.head?_eq_getElem?]
    exact hout
  · decide

/-- Witness for claim C10 at the input "/5". -/
theorem C10_leading_slash_wraparound_witness :
    ∃ c v, (f_list ("/5")).getLast? = some c ∧ pyInt c = some v ∧
      ([5, 5] : List Int).head? = some (10 - v) :=
  C10_leading_slash_wraparound.1 ("/5") [5, 5] (by decide) (by decide)
